import Mathlib

/-!
Verification of `py_stream` (src/py_stream/stream.py).

A Python generator is a single-pass, pull-driven producer.  We embed a
producer shallowly as the Lean list of the values it will still yield,
in order.  Each stage of the library builds a new generator around the
upstream one; draining such a stage to exhaustion consumes some prefix
of the upstream list and emits a list of values.  We therefore model a
stage as a function on lists, returning the emitted values together
with whatever remains un-pulled upstream (to account for partial
consumption) and, where a claim is about user callbacks, the list of
arguments the callback was applied to, in invocation order.
-/

namespace PyStream

universe u v w

variable {T : Type u} {R : Type v}

/-- Embedding of `_is_list_contains_value(the_list, value, comparator)`:
with a comparator it scans `the_list` in order and returns on the first
`l` with `comparator(l, value)` true; with `comparator = None` it falls
back to Python `value in the_list`, i.e. native equality against each
element in order. -/
def is_list_contains_value [DecidableEq T] (the_list : List T) (value : T)
    (comparator : Option (T → T → Bool)) : Bool :=
  match comparator with
  | none => the_list.any (fun l => decide (l = value))
  | some c => the_list.any (fun l => c l value)

/-- Embedding of `Stream.empty()`: a producer that yields nothing. -/
def empty_run : List T := []

/-- Embedding of the generator built by `Stream.concat(*streams)`: it
yields every element of the first input, then of the second, and so on
(`_yield_stream` unwraps a `Stream` to its generator, which in this
embedding is the identity on lists). -/
def concat_run : List (List T) → List T
  | [] => []
  | s :: ss => s ++ concat_run ss

/-- Embedding of draining the generator built by `map(mapper)`
(`for t in self._stream: yield mapper(t)`).  Returns the emitted
values and the list of arguments `mapper` was invoked on, in order. -/
def map_run (mapper : T → R) : List T → List R × List T
  | [] => ([], [])
  | t :: ts =>
    let (out, calls) := map_run mapper ts
    (mapper t :: out, t :: calls)

/-- Embedding of draining the generator built by `filter(filtration)`
(`for t in self._stream: if filtration(t): yield t`). -/
def filter_run (filtration : T → Bool) : List T → List T
  | [] => []
  | t :: ts =>
    if filtration t then t :: filter_run filtration ts
    else filter_run filtration ts

/-- Embedding of draining the generator built by `peek(action)`
(`for t in self._stream: action(t); yield t`).  Returns the emitted
values and the list of arguments `action` was invoked on, in order. -/
def peek_run : List T → List T × List T
  | [] => ([], [])
  | t :: ts =>
    let (out, calls) := peek_run ts
    (t :: out, t :: calls)

/-- Loop body of the generator built by `distinct(comparator)`: `prev`
is the mutable `_previous_values` list.  An incoming `t` already
contained in `prev` (per `_is_list_contains_value`) is skipped;
otherwise it is yielded and appended to `prev`. -/
def distinct_go [DecidableEq T] (comparator : Option (T → T → Bool)) :
    List T → List T → List T
  | _prev, [] => []
  | prev, t :: ts =>
    if is_list_contains_value prev t comparator then
      distinct_go comparator prev ts
    else t :: distinct_go comparator (prev ++ [t]) ts

/-- Embedding of draining the generator built by `distinct(comparator)`:
`_previous_values` starts empty. -/
def distinct_run [DecidableEq T] (comparator : Option (T → T → Bool))
    (xs : List T) : List T :=
  distinct_go comparator [] xs

/-- Loop of the generator built by `limit(max_size)`: `idx` is the
mutable `_idx`, initialised to `max_size`.  Each iteration pulls one
element `t` from upstream; if `_idx <= 0` the loop breaks (the source
also decrements `_idx` there, with no further effect), leaving the rest
of the upstream un-pulled; otherwise `t` is yielded and the loop
continues.  The source never decrements `_idx` on the yield path, and
this embedding reproduces that faithfully.  Returns the emitted values
and the un-pulled upstream remainder. -/
def limit_go (idx : Int) : List T → List T × List T
  | [] => ([], [])
  | t :: rest =>
    if idx ≤ 0 then ([], rest)
    else
      let (out, rem) := limit_go idx rest
      (t :: out, rem)

/-- Embedding of draining the generator built by `limit(max_size)`. -/
def limit_run (max_size : Int) (xs : List T) : List T × List T :=
  limit_go max_size xs

/-- Embedding of `any_match(predicate)`: pulls elements in order,
returning `True` on the first satisfying element (leaving the rest of
the producer un-pulled), else `False` at exhaustion.  Returns
(result, arguments the predicate was invoked on, un-pulled remainder). -/
def any_match_run (predicate : T → Bool) : List T → Bool × List T × List T
  | [] => (false, [], [])
  | t :: ts =>
    if predicate t then (true, [t], ts)
    else
      let (r, calls, rem) := any_match_run predicate ts
      (r, t :: calls, rem)

/-- Embedding of `all_match(predicate)`: pulls elements in order,
returning `False` on the first failing element (leaving the rest of
the producer un-pulled), else `True` at exhaustion.  Returns
(result, arguments the predicate was invoked on, un-pulled remainder). -/
def all_match_run (predicate : T → Bool) : List T → Bool × List T × List T
  | [] => (true, [], [])
  | t :: ts =>
    if predicate t then
      let (r, calls, rem) := all_match_run predicate ts
      (r, t :: calls, rem)
    else (false, [t], ts)

/-- Embedding of `none_match(predicate)`:
`self.all_match(lambda t: not predicate(t))`. -/
def none_match_run (predicate : T → Bool) (xs : List T) :
    Bool × List T × List T :=
  all_match_run (fun t => ! predicate t) xs

/-- Embedding of `count()` (`len(list(self._stream))`): fully drains the
producer and returns the number of elements; nothing remains upstream. -/
def count_run (xs : List T) : Nat × List T :=
  (xs.length, [])

/-! Helper lemmas shared by the claim theorems. -/

lemma concat_run_eq_flatten (ss : List (List T)) : concat_run ss = ss.flatten := by
  induction ss with
  | nil => rfl
  | cons s ss ih => simp [concat_run, ih]

lemma map_run_eq (f : T → R) (xs : List T) : map_run f xs = (xs.map f, xs) := by
  induction xs with
  | nil => rfl
  | cons t ts ih => simp [map_run, ih]

lemma peek_run_eq (xs : List T) : peek_run xs = (xs, xs) := by
  induction xs with
  | nil => rfl
  | cons t ts ih => simp [peek_run, ih]

lemma any_match_false_drained (p : T → Bool) :
    ∀ xs : List T, (any_match_run p xs).1 = false → (any_match_run p xs).2.2 = [] := by
  intro xs
  induction xs with
  | nil => intro _; rfl
  | cons t ts ih =>
    by_cases h : p t = true
    · simp [any_match_run, h]
    · simp only [Bool.not_eq_true] at h
      simp [any_match_run, h]
      exact ih

lemma all_match_true_drained (p : T → Bool) :
    ∀ xs : List T, (all_match_run p xs).1 = true → (all_match_run p xs).2.2 = [] := by
  intro xs
  induction xs with
  | nil => intro _; rfl
  | cons t ts ih =>
    by_cases h : p t = true
    · simp [all_match_run, h]
      exact ih
    · simp only [Bool.not_eq_true] at h
      simp [all_match_run, h]

/-- Specification-side loop for distinct, following the spec text rather
than the code: `earlier` accumulates ALL source elements already seen
(not just the retained ones); a candidate is suppressed exactly when
some earlier source element is equivalent to it, so the output is the
first occurrence of each equivalence class in source order. -/
def first_occ_go (equiv : T → T → Bool) : List T → List T → List T
  | _, [] => []
  | earlier, x :: rest =>
    if earlier.any (fun e => equiv e x) then first_occ_go equiv (earlier ++ [x]) rest
    else x :: first_occ_go equiv (earlier ++ [x]) rest

/-- Specification-side definition of distinct: keep each element iff no
earlier source element is equivalent to it. -/
def first_occurrences (equiv : T → T → Bool) (xs : List T) : List T :=
  first_occ_go equiv [] xs

lemma distinct_go_eq_first_occ [DecidableEq T] (equiv : T → T → Bool)
    (hrefl : ∀ a, equiv a a = true)
    (htrans : ∀ a b c, equiv a b = true → equiv b c = true → equiv a c = true) :
    ∀ (xs prev earlier : List T),
      (∀ s ∈ prev, s ∈ earlier) →
      (∀ e ∈ earlier, ∃ s ∈ prev, equiv s e = true) →
      distinct_go (some equiv) prev xs = first_occ_go equiv earlier xs := by
  intro xs
  induction xs with
  | nil => intro prev earlier _ _; rfl
  | cons x rest ih =>
    intro prev earlier hsub hcov
    have hkey : is_list_contains_value prev x (some equiv) =
        earlier.any (fun e => equiv e x) := by
      simp only [is_list_contains_value, List.any_eq, decide_eq_decide]
      constructor
      · rintro ⟨l, hl, hlx⟩
        exact ⟨l, hsub l hl, hlx⟩
      · rintro ⟨e, he, hex⟩
        obtain ⟨s, hs, hse⟩ := hcov e he
        exact ⟨s, hs, htrans s e x hse hex⟩
    by_cases hmem : earlier.any (fun e => equiv e x) = true
    · have hsup : is_list_contains_value prev x (some equiv) = true := by
        rw [hkey]; exact hmem
      simp only [distinct_go, first_occ_go, hsup, hmem, if_true]
      apply ih prev (earlier ++ [x])
      · intro s hs
        exact List.mem_append_left _ (hsub s hs)
      · intro e he
        rcases List.mem_append.mp he with h | h
        · exact hcov e h
        · obtain ⟨e', he', he'x⟩ := List.any_eq_true.mp hmem
          obtain ⟨s, hs, hse'⟩ := hcov e' he'
          have hex : e = x := List.mem_singleton.mp h
          exact ⟨s, hs, hex ▸ htrans s e' x hse' he'x⟩
    · have hnew : is_list_contains_value prev x (some equiv) = false := by
        rw [hkey]
        exact Bool.not_eq_true _ ▸ hmem
      simp only [Bool.not_eq_true] at hmem
      simp only [distinct_go, first_occ_go, hnew, hmem, if_false, Bool.false_eq_true]
      congr 1
      apply ih (prev ++ [x]) (earlier ++ [x])
      · intro s hs
        rcases List.mem_append.mp hs with h | h
        · exact List.mem_append_left _ (hsub s h)
        · exact List.mem_append_right _ h
      · intro e he
        rcases List.mem_append.mp he with h | h
        · obtain ⟨s, hs, hse⟩ := hcov e h
          exact ⟨s, List.mem_append_left _ hs, hse⟩
        · have hex : e = x := List.mem_singleton.mp h
          exact ⟨x, List.mem_append_right _ (List.mem_singleton_self x),
            hex ▸ hrefl x⟩

lemma distinct_go_none_avoids [DecidableEq T] :
    ∀ (xs prev : List T),
      (distinct_go (none : Option (T → T → Bool)) prev xs).Nodup ∧
      ∀ y ∈ distinct_go (none : Option (T → T → Bool)) prev xs, y ∉ prev := by
  intro xs
  induction xs with
  | nil => intro prev; exact ⟨List.nodup_nil, by intro y hy; cases hy⟩
  | cons x rest ih =>
    intro prev
    by_cases hmem : x ∈ prev
    · have h : is_list_contains_value prev x (none : Option (T → T → Bool)) = true := by
        simp [is_list_contains_value, List.any_eq_true]
        exact hmem
      simpa [distinct_go, h] using ih prev
    · have h : is_list_contains_value prev x (none : Option (T → T → Bool)) = false := by
        simp [is_list_contains_value, List.any_eq_true]
        intro l hl hlx
        exact hmem (hlx ▸ hl)
      obtain ⟨hnd, havoid⟩ := ih (prev ++ [x])
      simp only [distinct_go, h, Bool.false_eq_true, if_false]
      constructor
      · refine List.nodup_cons.mpr ⟨?_, hnd⟩
        intro hx
        exact havoid x hx (List.mem_append_right _ (List.mem_singleton_self x))
      · intro y hy
        rcases List.mem_cons.mp hy with h' | h'
        · exact h' ▸ hmem
        · intro hyp
          exact havoid y h' (List.mem_append_left _ hyp)

lemma distinct_go_none_fixed [DecidableEq T] :
    ∀ (ys prev : List T), ys.Nodup → (∀ y ∈ ys, y ∉ prev) →
      distinct_go (none : Option (T → T → Bool)) prev ys = ys := by
  intro ys
  induction ys with
  | nil => intro prev _ _; rfl
  | cons y rest ih =>
    intro prev hnd havoid
    have h : is_list_contains_value prev y (none : Option (T → T → Bool)) = false := by
      simp [is_list_contains_value, List.any_eq_true]
      intro l hl hly
      exact havoid y (List.mem_cons_self y rest) (hly ▸ hl)
    simp only [distinct_go, h, Bool.false_eq_true, if_false]
    congr 1
    obtain ⟨hy, hnd'⟩ := List.nodup_cons.mp hnd
    apply ih (prev ++ [y]) hnd'
    intro z hz hzmem
    rcases List.mem_append.mp hzmem with h' | h'
    · exact havoid z (List.mem_cons_of_mem y hz) h'
    · exact hy (List.mem_singleton.mp h' ▸ hz)

/-! Claim theorems. -/

/-- C1: evaluation at a failing input.  The source of limit never
decrements its countdown on the yield path, so limit(2) over the
producer [1,2,3] yields all three elements: the pipeline limit(2)
followed by count() returns 3, not min(2,3) = 2, and limit pulls all
three upstream elements (the un-pulled remainder is empty), exceeding
the claimed bound of 2 pulls. -/
theorem C1_limit_count_at_failing_input :
    (count_run (limit_run 2 ([1, 2, 3] : List Nat)).1).1 = 3 ∧
    (count_run (limit_run 2 ([1, 2, 3] : List Nat)).1).1 ≠ min 2 3 ∧
    (limit_run 2 ([1, 2, 3] : List Nat)).2 = [] := by
  refine ⟨rfl, by decide, rfl⟩

/-- C2: evaluation at a failing input.  Draining limit(0) over the
producer [1] yields nothing, but the for-loop pulls one element from
upstream before breaking: the upstream remainder is [] rather than the
untouched [1], so the upstream producer's state is changed. -/
theorem C2_limit_nonpositive_at_failing_input :
    limit_run 0 ([1] : List Nat) = ([], []) ∧
    (limit_run 0 ([1] : List Nat)).2 ≠ [1] := by
  refine ⟨rfl, by decide⟩

/-- C3 counterexample: any_match with an always-true predicate on the
producer [1,2,3] returns true after pulling a single element; the
stream is NOT exhausted, and invoking the terminal operator count() on
it afterwards returns 2, not the empty-sequence answer 0 the claim
requires. -/
theorem C3_short_circuit_counterexample :
    (any_match_run (fun _ : Nat => true) [1, 2, 3]).1 = true ∧
    (count_run (any_match_run (fun _ : Nat => true) [1, 2, 3]).2.2).1 = 2 ∧
    (count_run (any_match_run (fun _ : Nat => true) [1, 2, 3]).2.2).1 ≠ 0 := by
  refine ⟨rfl, rfl, by decide⟩

/-- C3 (amended): count() always exhausts the stream, and the match
terminals exhaust it whenever they return without short-circuiting
(any_match returning false, all_match or none_match returning true);
a short-circuited match instead leaves the un-pulled remainder in the
stream.  Re-invoking any terminal operator on an exhausted stream is
well-defined and returns the empty-sequence answer: false for
any_match, true for all_match and none_match, 0 for count. -/
theorem C3_terminals_exhaustion (xs : List T) (p q : T → Bool) :
    count_run xs = (xs.length, []) ∧
    ((any_match_run p xs).1 = false → (any_match_run p xs).2.2 = []) ∧
    ((all_match_run p xs).1 = true → (all_match_run p xs).2.2 = []) ∧
    ((none_match_run p xs).1 = true → (none_match_run p xs).2.2 = []) ∧
    any_match_run q ([] : List T) = (false, [], []) ∧
    all_match_run q ([] : List T) = (true, [], []) ∧
    none_match_run q ([] : List T) = (true, [], []) ∧
    count_run ([] : List T) = (0, []) :=
  ⟨rfl, any_match_false_drained p xs, all_match_true_drained p xs,
    all_match_true_drained (fun t => ! p t) xs, rfl, rfl, rfl, rfl⟩

/-- C3 witness: the amended theorem applied at a concrete input that
does not short-circuit. -/
theorem C3_terminals_exhaustion_witness :
    (any_match_run (fun _ : Nat => false) [1, 2]).2.2 = [] :=
  (C3_terminals_exhaustion [1, 2] (fun _ : Nat => false) (fun _ => false)).2.1 (by decide)

/-- C4: on Stream.empty(), count() returns 0, any_match returns false,
all_match and none_match return true, and the predicate is never
invoked (the invocation log is empty), for every predicate p. -/
theorem C4_empty_terminals (p : T → Bool) :
    count_run (empty_run : List T) = (0, []) ∧
    any_match_run p (empty_run : List T) = (false, [], []) ∧
    all_match_run p (empty_run : List T) = (true, [], []) ∧
    none_match_run p (empty_run : List T) = (true, [], []) :=
  ⟨rfl, rfl, rfl, rfl⟩

/-- C5: under an equivalence relation, distinct yields exactly the
first occurrence of each equivalence class in source order — it agrees
with the specification-side first_occurrences, which suppresses a
candidate exactly when some earlier source element is equivalent to it
(the code checks comparator(prior, candidate) against the retained
values in insertion order, first match suppressing); and concretely,
distinct on [1,4,2,5] with the comparator a % 3 == b % 3 yields
[1,2]. -/
theorem C5_distinct_first_occurrence [DecidableEq T] (equiv : T → T → Bool)
    (hrefl : ∀ a, equiv a a = true)
    (hsymm : ∀ a b, equiv a b = equiv b a)
    (htrans : ∀ a b c, equiv a b = true → equiv b c = true → equiv a c = true)
    (xs : List T) :
    distinct_run (some equiv) xs = first_occurrences equiv xs ∧
    distinct_run (some fun a b : Int => decide (a % 3 = b % 3)) [1, 4, 2, 5] = [1, 2] := by
  constructor
  · exact distinct_go_eq_first_occ equiv hrefl htrans xs [] []
      (by intro s hs; exact hs) (by intro e he; cases he)
  · decide

/-- C5 witness: the theorem applied to the mod-3 comparator on Int and
the concrete input of the claim. -/
theorem C5_distinct_first_occurrence_witness :
    distinct_run (some fun a b : Int => decide (a % 3 = b % 3)) [1, 4, 2, 5] = [1, 2] :=
  (C5_distinct_first_occurrence (fun a b : Int => decide (a % 3 = b % 3))
    (fun _ => decide_eq_true rfl)
    (fun _ _ => decide_eq_decide.mpr eq_comm)
    (fun _ _ _ hab hbc =>
      decide_eq_true ((of_decide_eq_true hab).trans (of_decide_eq_true hbc)))
    [1, 4, 2, 5]).2

/-- C6: concat yields every element of the first input in order, then
of the second, and so on (it flattens its inputs); with zero arguments
it is exactly Stream.empty(); and concretely
concat(stream([1,2]), stream([]), stream([3])) yields [1,2,3]. -/
theorem C6_concat_flattens (s : List T) (ss : List (List T)) :
    concat_run ([] : List (List T)) = (empty_run : List T) ∧
    concat_run (s :: ss) = s ++ concat_run ss ∧
    concat_run ss = ss.flatten ∧
    concat_run [[1, 2], [], [3]] = ([1, 2, 3] : List Nat) :=
  ⟨rfl, rfl, concat_run_eq_flatten ss, rfl⟩

/-- C7: with the default equality, distinct is idempotent: applying
distinct to the output of distinct yields that output unchanged. -/
theorem C7_distinct_idempotent [DecidableEq T] (xs : List T) :
    distinct_run (none : Option (T → T → Bool))
        (distinct_run (none : Option (T → T → Bool)) xs) =
      distinct_run (none : Option (T → T → Bool)) xs := by
  obtain ⟨hnd, _⟩ := distinct_go_none_avoids (T := T) xs []
  exact distinct_go_none_fixed _ [] hnd (by intro y _ hy; cases hy)

/-- C8: map never changes length — mapping then counting equals
counting — and the mapper is invoked exactly once per element, in
source order (its invocation log is exactly the source list), the
output being the in-order image of the source. -/
theorem C8_map_preserves_count (f : T → R) (xs : List T) :
    (count_run (map_run f xs).1).1 = (count_run xs).1 ∧
    (map_run f xs).2 = xs ∧
    (map_run f xs).1 = xs.map f := by
  rw [map_run_eq]
  exact ⟨by simp [count_run], rfl, rfl⟩

/-- C9: peek is an exact identity pass-through and invokes its action
exactly once per element that reaches it, in order; composed after a
filter, the action observes exactly the elements the filter kept —
concretely, on [1,2,3,4] filtered to even values, the action observes
[2,4], so a counter side effect ends at 2. -/
theorem C9_peek_observes (xs ys : List T) (p : T → Bool) :
    peek_run xs = (xs, xs) ∧
    (peek_run (filter_run p ys)).2 = filter_run p ys ∧
    (peek_run (filter_run (fun n => n % 2 == 0) ([1, 2, 3, 4] : List Nat))).2 = [2, 4] ∧
    ((peek_run (filter_run (fun n => n % 2 == 0) ([1, 2, 3, 4] : List Nat))).2).length = 2 := by
  refine ⟨peek_run_eq xs, ?_, by decide, by decide⟩
  rw [peek_run_eq]

/-- C10: map fusion — mapping with f and then with g yields the same
sequence as mapping once with their composition. -/
theorem C10_map_fusion {S : Type w} (f : T → R) (g : R → S) (xs : List T) :
    (map_run g (map_run f xs).1).1 = (map_run (fun t => g (f t)) xs).1 := by
  rw [map_run_eq, map_run_eq, map_run_eq]
  simp [List.map_map, Function.comp]

end PyStream
